import Mathlib

/-
Verification of the inventory-kiosk reconciliation and planning engine.

The embedding models the two-table data model (`ingredients`,
`inventory_txns`) and the operations the specification is about:

* `onHand` — the SQL aggregate
  `sum(case when type='in' then qty else -qty end)` over `inventory_txns`
  rows of one ingredient, used identically in `lib/inv_helpers.py`
  (`load_area_df`, `save_count_adjustments`) and `inventory_kiosk.py`
  (`onhand_df`, `order_planning_df`).
* `insert_txn` — the unconditional INSERT of `inventory_kiosk.py` /
  `inventory_app.py`.
* `save_count_adjustments` — `lib/inv_helpers.py` lines 28-52: the batch
  reconciliation loop whose per-item SQL re-derives on-hand at write time.
* `postAdjustments` — the "Post Adjustments" loop of
  `show_area_page` (`inventory_kiosk.py` lines 246-262), which rounds the
  delta to 4 decimal places against a snapshot on-hand.
* `par`, `to_order` — `pages/7_Order_Planning.py` lines 25-29.

Quantities are modelled as rationals; Python's `round(x, 4)` (half-even)
is `round4`.
-/

namespace InventoryKiosk

/-- The float tolerance `1e-9` used by the reconciliation gates. -/
def eps : ℚ := 1 / 1000000000

/-- One row of `inventory_txns`: the append-only movement ledger.
Columns as in the INSERT of `insert_txn`
(`inventory_kiosk.py` lines 76-80). -/
structure Txn where
  ingredient_id : String
  type : String
  qty : ℚ
  unit_cost : Option ℚ
  source : String
  ref_id : Option String
deriving DecidableEq

/-- One row of `ingredients` (fields the engine reads). -/
structure Ingredient where
  id : String
  name : String
  unit : String
  vendor : Option String
  area : Option String
deriving DecidableEq

/-- The signed contribution of one ledger row:
`case when type='in' then qty else -qty end`. -/
def signedVal (t : Txn) : ℚ :=
  if t.type = "in" then t.qty else -t.qty

/-- Derived on-hand of one ingredient: the SQL aggregate
`coalesce(sum(case when type='in' then qty else -qty end),0)` restricted
to rows with this `ingredient_id` (the empty sum plays `coalesce(...,0)`). -/
def onHand (ledger : List Txn) (rid : String) : ℚ :=
  ((ledger.filter (fun t => t.ingredient_id = rid)).map signedVal).sum

/-- `insert_txn` (`inventory_kiosk.py` lines 76-80, `inventory_app.py`
lines 53-57): a plain INSERT into `inventory_txns`, with no validation of
the quantity or of the ingredient id. -/
def insert_txn (ledger : List Txn) (ingredient_id : String) (ttype : String)
    (qty : ℚ) (unit_cost : Option ℚ) (source : String) (ref_id : Option String) :
    List Txn :=
  ledger ++ [⟨ingredient_id, ttype, qty, unit_cost, source, ref_id⟩]

/-- The per-item SQL statement of `save_count_adjustments`
(`lib/inv_helpers.py` lines 39-51): re-derive `on_hand` from the ledger in
the same statement, then insert
`(rid, case when new >= on_hand then 'in' else 'out', abs(new - on_hand),
'adjustment')` guarded by `where new <> on_hand`. -/
def adjustStep (L : List Txn) (p : String × ℚ) : List Txn :=
  let on_hand := onHand L p.1
  if p.2 ≠ on_hand then
    L ++ [⟨p.1, if p.2 ≥ on_hand then "in" else "out", |p.2 - on_hand|,
           none, "adjustment", none⟩]
  else L

/-- `save_count_adjustments` (`lib/inv_helpers.py` lines 28-52).
`base_map` models the Python dict via `base_map.get(rid, 0.0)` as a total
function; `new_map` models the dict items (distinct keys at call sites).
Items are gated against `base_map` by `abs(new - base) > 1e-9`, then each
surviving item runs `adjustStep` sequentially; the return value is the
pair (final ledger, `len(diffs)`). -/
def save_count_adjustments (ledger : List Txn) (base_map : String → ℚ)
    (new_map : List (String × ℚ)) : List Txn × Nat :=
  let diffs := new_map.filter (fun p => |p.2 - base_map p.1| > eps)
  if diffs.isEmpty then (ledger, 0)
  else (diffs.foldl adjustStep ledger, diffs.length)

/-- The reconcile operation of the spec, as realised at the call site
`area_counter_ui` (`lib/inv_helpers.py` lines 84 and 148): `base_map` is
the on-hand snapshot derived from the ledger (`load_area_df`), restricted
here to a single submitted item. -/
def reconcile (ledger : List Txn) (rid : String) (X : ℚ) : List Txn × Nat :=
  save_count_adjustments ledger (fun r => onHand ledger r) [(rid, X)]

/-- Round-half-even to an integer (the rounding of Python's `round` and
pandas `.round`). -/
def roundHE (x : ℚ) : ℤ :=
  if x - ⌊x⌋ < 1 / 2 then ⌊x⌋
  else if 1 / 2 < x - ⌊x⌋ then ⌊x⌋ + 1
  else if ⌊x⌋ % 2 = 0 then ⌊x⌋ else ⌊x⌋ + 1

/-- Python's `round(x, 4)` on rationals. -/
def round4 (x : ℚ) : ℚ := (roundHE (x * 10000) : ℚ) / 10000

/-- One editable grid row of `show_area_page`: ingredient id, the
displayed snapshot `on_hand`, and the keyed `count_now`. -/
structure CountRow where
  id : String
  on_hand : ℚ
  count_now : ℚ
deriving DecidableEq

/-- One iteration of the "Post Adjustments" loop
(`inventory_kiosk.py` lines 247-262): `delta = round(target - current, 4)`;
skip when `abs(delta) < 1e-9`; else insert
`('in' if delta > 0 else 'out', abs(delta), source='adjustment')` and
increment `posted`. -/
def postStep (acc : List Txn × Nat) (r : CountRow) : List Txn × Nat :=
  let target := r.count_now
  let current := r.on_hand
  let delta := round4 (target - current)
  if |delta| < eps then acc
  else
    (insert_txn acc.1 r.id (if delta > 0 then "in" else "out") |delta|
       none "adjustment" none,
     acc.2 + 1)

/-- The whole "Post Adjustments" handler of `show_area_page`
(`inventory_kiosk.py` lines 243-264): fold the loop over the grid rows,
returning the final ledger and the `posted` counter. -/
def postAdjustments (ledger : List Txn) (rows : List CountRow) :
    List Txn × Nat :=
  rows.foldl postStep (ledger, 0)

/-- `daily_usage` (`pages/7_Order_Planning.py` line 25). -/
def daily_usage (weekly_usage : ℚ) : ℚ := weekly_usage / 7

/-- `par_calc` (`pages/7_Order_Planning.py` line 27):
`(daily_usage * 11).round(4)`. -/
def par_calc (weekly_usage : ℚ) : ℚ := round4 (daily_usage weekly_usage * 11)

/-- `par` (`pages/7_Order_Planning.py` line 28):
`par_override if par_override and par_override > 0 else par_calc`
(Python truthiness: `par_override` is truthy iff nonzero; the SQL read
turns an absent override into 0). -/
def par (weekly_usage par_override : ℚ) : ℚ :=
  if par_override ≠ 0 ∧ 0 < par_override then par_override
  else par_calc weekly_usage

/-- `to_order` (`pages/7_Order_Planning.py` line 29, and
`greatest(0, par_level - on_hand)` in `inventory_kiosk.py` line 141):
`(par - on_hand).clip(lower=0)`. -/
def to_order (par_level on_hand : ℚ) : ℚ := max 0 (par_level - on_hand)

/-- One result row of `onhand_df`. -/
structure OnhandRow where
  ingredient_id : String
  name : String
  on_hand : ℚ
deriving DecidableEq

/-- `onhand_df` (`inventory_kiosk.py` lines 115-127, inline fallback
query): `ingredients` LEFT JOIN `inventory_txns` grouped by ingredient,
`coalesce(sum(case when type='in' then qty else -qty end),0)` — one row
per master-list ingredient, zero when it has no movements. -/
def onhand_df (ingredients : List Ingredient) (ledger : List Txn) :
    List OnhandRow :=
  ingredients.map (fun i => ⟨i.id, i.name, onHand ledger i.id⟩)

/-- One result row of `load_area_df`. -/
structure AreaRow where
  ingredient_id : String
  name : String
  unit : String
  area : Option String
  vendor : Option String
  on_hand : ℚ
deriving DecidableEq

/-- `load_area_df` (`lib/inv_helpers.py` lines 13-26): the same on-hand
CTE joined to the master list filtered by area (`order by name` is
presentational and omitted). -/
def load_area_df (ingredients : List Ingredient) (ledger : List Txn)
    (area_name : String) : List AreaRow :=
  (ingredients.filter (fun i => i.area = some area_name)).map
    (fun i => ⟨i.id, i.name, i.unit, i.area, i.vendor, onHand ledger i.id⟩)

/- ------------------------------------------------------------------ -/
/- Helper lemmas                                                       -/
/- ------------------------------------------------------------------ -/

lemma onHand_nil (rid : String) : onHand [] rid = 0 := rfl

lemma onHand_append (L : List Txn) (t : Txn) (rid : String) :
    onHand (L ++ [t]) rid =
      onHand L rid + (if t.ingredient_id = rid then signedVal t else 0) := by
  unfold onHand
  rw [List.filter_append, List.map_append, List.sum_append]
  by_cases h : t.ingredient_id = rid
  · simp [h]
  · simp [h]

lemma eps_pos : 0 < eps := by norm_num [eps]

lemma adjustStep_onHand_self (L : List Txn) (rid : String) (X : ℚ) :
    onHand (adjustStep L (rid, X)) rid = X := by
  unfold adjustStep
  by_cases h : X ≠ onHand L rid
  · rw [if_pos h, onHand_append]
    by_cases h2 : X ≥ onHand L rid
    · have habs : |X - onHand L rid| = X - onHand L rid :=
        abs_of_nonneg (sub_nonneg.mpr h2)
      simp [signedVal, h2, habs]
    · have habs : |X - onHand L rid| = -(X - onHand L rid) :=
        abs_of_neg (sub_neg.mpr (not_le.mp h2))
      simp [signedVal, h2, habs]
  · rw [if_neg h]
    push_neg at h
    exact h.symm

lemma adjustStep_onHand_other (L : List Txn) (p : String × ℚ) (r : String)
    (h : p.1 ≠ r) :
    onHand (adjustStep L p) r = onHand L r := by
  unfold adjustStep
  by_cases hc : p.2 ≠ onHand L p.1
  · rw [if_pos hc, onHand_append]
    simp [h]
  · rw [if_neg hc]

lemma foldl_adjustStep_other (ds : List (String × ℚ)) (L : List Txn)
    (r : String) (h : r ∉ ds.map Prod.fst) :
    onHand (ds.foldl adjustStep L) r = onHand L r := by
  induction ds generalizing L with
  | nil => rfl
  | cons p rest ih =>
    simp only [List.map_cons, List.mem_cons, not_or] at h
    rw [List.foldl_cons, ih _ h.2,
        adjustStep_onHand_other L p r (fun he => h.1 he.symm)]

lemma foldl_adjustStep_mem (ds : List (String × ℚ)) (L : List Txn)
    (rid : String) (X : ℚ) (hnd : (ds.map Prod.fst).Nodup)
    (hmem : (rid, X) ∈ ds) :
    onHand (ds.foldl adjustStep L) rid = X := by
  induction ds generalizing L with
  | nil => cases hmem
  | cons p rest ih =>
    rw [List.map_cons, List.nodup_cons] at hnd
    rcases List.mem_cons.mp hmem with heq | hmem'
    · subst heq
      rw [List.foldl_cons, foldl_adjustStep_other rest _ rid hnd.1,
          adjustStep_onHand_self]
    · rw [List.foldl_cons]
      exact ih (adjustStep L p) hnd.2 hmem'

lemma adjustStep_of_ne (L : List Txn) (rid : String) (X : ℚ)
    (h : X ≠ onHand L rid) :
    adjustStep L (rid, X) =
      L ++ [⟨rid, if X ≥ onHand L rid then "in" else "out",
             |X - onHand L rid|, none, "adjustment", none⟩] := by
  unfold adjustStep
  exact if_pos h

lemma foldl_adjustStep_length (ds : List (String × ℚ)) (L : List Txn)
    (hnd : (ds.map Prod.fst).Nodup)
    (h : ∀ p ∈ ds, p.2 ≠ onHand L p.1) :
    (ds.foldl adjustStep L).length = L.length + ds.length := by
  induction ds generalizing L with
  | nil => simp
  | cons p rest ih =>
    rw [List.map_cons, List.nodup_cons] at hnd
    have hp : p.2 ≠ onHand L p.1 := h p (List.mem_cons_self p rest)
    have hstep : adjustStep L p = L ++
        [⟨p.1, if p.2 ≥ onHand L p.1 then "in" else "out",
          |p.2 - onHand L p.1|, none, "adjustment", none⟩] :=
      adjustStep_of_ne L p.1 p.2 hp
    rw [List.foldl_cons, ih (adjustStep L p) hnd.2 ?_]
    · rw [hstep]
      simp only [List.length_append, List.length_cons, List.length_nil,
        List.length_cons]
      omega
    · intro q hq
      have hch : onHand (adjustStep L p) q.1 = onHand L q.1 := by
        apply adjustStep_onHand_other
        intro he
        exact hnd.1 (he ▸ List.mem_map_of_mem Prod.fst hq)
      rw [hch]
      exact h q (List.mem_cons_of_mem p hq)

lemma foldl_adjustStep_txn_mem (ds : List (String × ℚ)) (L : List Txn)
    (t : Txn) (ht : t ∈ ds.foldl adjustStep L) :
    t ∈ L ∨ (0 ≤ t.qty ∧ t.source = "adjustment") := by
  induction ds generalizing L with
  | nil => exact Or.inl ht
  | cons p rest ih =>
    rw [List.foldl_cons] at ht
    rcases ih (adjustStep L p) ht with hmem | hprop
    · unfold adjustStep at hmem
      by_cases hc : p.2 ≠ onHand L p.1
      · rw [if_pos hc] at hmem
        rcases List.mem_append.mp hmem with hL | hnew
        · exact Or.inl hL
        · rcases List.mem_singleton.mp hnew with rfl
          exact Or.inr ⟨abs_nonneg _, rfl⟩
      · rw [if_neg hc] at hmem
        exact Or.inl hmem
    · exact Or.inr hprop

lemma nodup_keys_eq {l : List (String × ℚ)} {a : String} {b c : ℚ}
    (hnd : (l.map Prod.fst).Nodup) (hb : (a, b) ∈ l) (hc : (a, c) ∈ l) :
    b = c := by
  induction l with
  | nil => cases hb
  | cons p rest ih =>
    rw [List.map_cons, List.nodup_cons] at hnd
    rcases List.mem_cons.mp hb with hb1 | hb2 <;>
      rcases List.mem_cons.mp hc with hc1 | hc2
    · exact (Prod.ext_iff.mp (hb1.trans hc1.symm)).2
    · exfalso
      apply hnd.1
      have hma : a ∈ rest.map Prod.fst := List.mem_map_of_mem Prod.fst hc2
      rwa [show p.1 = a from (congrArg Prod.fst hb1).symm]
    · exfalso
      apply hnd.1
      have hma : a ∈ rest.map Prod.fst := List.mem_map_of_mem Prod.fst hb2
      rwa [show p.1 = a from (congrArg Prod.fst hc1).symm]
    · exact ih hnd.2 hb2 hc2

/- ------------------------------------------------------------------ -/
/- Claims                                                              -/
/- ------------------------------------------------------------------ -/

lemma gap_ne {X c : ℚ} (h : |X - c| > eps) : X ≠ c := by
  intro he
  rw [he, sub_self, abs_zero] at h
  exact absurd h (not_lt.mpr (le_of_lt eps_pos))

lemma save_count_adjustments_eq (ledger : List Txn) (base_map : String → ℚ)
    (new_map : List (String × ℚ)) :
    save_count_adjustments ledger base_map new_map =
      ((new_map.filter (fun p => |p.2 - base_map p.1| > eps)).foldl
          adjustStep ledger,
       (new_map.filter (fun p => |p.2 - base_map p.1| > eps)).length) := by
  unfold save_count_adjustments
  by_cases he : new_map.filter (fun p => |p.2 - base_map p.1| > eps) = []
  · simp [he]
  · simp [he]

lemma reconcile_eq (ledger : List Txn) (rid : String) (X : ℚ) :
    reconcile ledger rid X =
      if |X - onHand ledger rid| > eps then (adjustStep ledger (rid, X), 1)
      else (ledger, 0) := by
  unfold reconcile save_count_adjustments
  by_cases h : |X - onHand ledger rid| > eps
  · simp [h]
  · simp [h]

/-- C1: for every prior ledger state, after `reconcile` (the
`save_count_adjustments` call applying submitted absolute count `X` for
ingredient `rid`) returns, the derived on-hand for `rid` equals `X`
within epsilon `1e-9`. -/
theorem C1_reconcile_correct (ledger : List Txn) (rid : String) (X : ℚ) :
    |onHand (reconcile ledger rid X).1 rid - X| ≤ eps := by
  rw [reconcile_eq]
  by_cases h : |X - onHand ledger rid| > eps
  · rw [if_pos h]
    show |onHand (adjustStep ledger (rid, X)) rid - X| ≤ eps
    rw [adjustStep_onHand_self, sub_self, abs_zero]
    exact le_of_lt eps_pos
  · rw [if_neg h]
    show |onHand ledger rid - X| ≤ eps
    rw [abs_sub_comm]
    exact not_lt.mp h

lemma reconcile_noop (ledger : List Txn) (rid : String) (X : ℚ)
    (h : ¬ |X - onHand ledger rid| > eps) :
    reconcile ledger rid X = (ledger, 0) := by
  rw [reconcile_eq, if_neg h]

/-- C2 counterexample: with an empty ledger and submitted count 0 for
ingredient "a", calling `reconcile` twice in a row appends zero movements,
not exactly one movement in total. -/
theorem C2_counterexample :
    ¬ (((reconcile (reconcile ([] : List Txn) "a" 0).1 "a" 0).1).length =
        ([] : List Txn).length + 1) := by
  have hno : ¬ |(0 : ℚ) - onHand ([] : List Txn) "a"| > eps := by
    show ¬ |(0 : ℚ) - 0| > eps
    norm_num [eps]
  have h1 : reconcile ([] : List Txn) "a" 0 = ([], 0) :=
    reconcile_noop _ _ _ hno
  rw [h1]
  show ¬ (((reconcile ([] : List Txn) "a" 0).1).length =
    ([] : List Txn).length + 1)
  rw [h1]
  simp

/-- C2 (amended): calling `reconcile` twice in a row with the same `X`
appends exactly one movement in total when `|X - current| > 1e-9` and
zero movements otherwise; reconciling to a value equal to the current
on-hand (`|delta| < 1e-9`) appends zero movements and performs no write. -/
theorem C2_reconcile_idempotent (ledger : List Txn) (rid : String) (X : ℚ) :
    (|X - onHand ledger rid| > eps →
      ((reconcile (reconcile ledger rid X).1 rid X).1).length =
        ledger.length + 1) ∧
    (|X - onHand ledger rid| ≤ eps →
      (reconcile (reconcile ledger rid X).1 rid X).1 = ledger) ∧
    (|X - onHand ledger rid| < eps → reconcile ledger rid X = (ledger, 0)) := by
  refine ⟨?_, ?_, ?_⟩
  · intro h
    rw [reconcile_eq ledger rid X, if_pos h]
    show ((reconcile (adjustStep ledger (rid, X)) rid X).1).length =
      ledger.length + 1
    have h1 : onHand (adjustStep ledger (rid, X)) rid = X :=
      adjustStep_onHand_self ledger rid X
    have hno : ¬ |X - onHand (adjustStep ledger (rid, X)) rid| > eps := by
      rw [h1, sub_self, abs_zero]
      exact not_lt.mpr (le_of_lt eps_pos)
    rw [reconcile_eq, if_neg hno]
    show (adjustStep ledger (rid, X)).length = ledger.length + 1
    rw [adjustStep_of_ne ledger rid X (gap_ne h)]
    simp
  · intro h
    have hno : ¬ |X - onHand ledger rid| > eps := not_lt.mpr h
    rw [reconcile_eq ledger rid X, if_neg hno]
    show (reconcile ledger rid X).1 = ledger
    rw [reconcile_eq ledger rid X, if_neg hno]
  · intro h
    have hno : ¬ |X - onHand ledger rid| > eps :=
      not_lt.mpr (le_of_lt h)
    rw [reconcile_eq ledger rid X, if_neg hno]

/-- C2 witness: reconciling an on-hand of 5 to 7 twice yields a ledger of
length 2 (one prior movement plus exactly one adjustment); reconciling an
empty ledger to its current value 0 is a no-op returning 0. -/
theorem C2_reconcile_idempotent_witness :
    ((reconcile (reconcile [(⟨"a", "in", 5, none, "purchase", none⟩ : Txn)]
        "a" 7).1 "a" 7).1).length = 2 ∧
    reconcile ([] : List Txn) "a" 0 = ([], 0) := by
  constructor
  · exact (C2_reconcile_idempotent [⟨"a", "in", 5, none, "purchase", none⟩]
      "a" 7).1 (by norm_num [onHand, signedVal, eps])
  · exact (C2_reconcile_idempotent [] "a" 0).2.2
      (by norm_num [onHand, eps])

/-- C3: `onhand_df` reports one row per master-list ingredient (never
omitted), each row's on-hand is the signed sum of that ingredient's
movements (+qty for direction "in", -qty otherwise), and an ingredient
with no movements is reported with on-hand 0. -/
theorem C3_onhand_aggregate (ingredients : List Ingredient)
    (ledger : List Txn) :
    ((onhand_df ingredients ledger).length = ingredients.length) ∧
    (∀ i ∈ ingredients,
      (⟨i.id, i.name, onHand ledger i.id⟩ : OnhandRow) ∈
        onhand_df ingredients ledger) ∧
    (∀ r ∈ onhand_df ingredients ledger,
      r.on_hand = ((ledger.filter
        (fun t => t.ingredient_id = r.ingredient_id)).map signedVal).sum) ∧
    (∀ rid : String,
      ledger.filter (fun t => t.ingredient_id = rid) = [] →
        onHand ledger rid = 0) := by
  refine ⟨List.length_map _ _, ?_, ?_, ?_⟩
  · intro i hi
    exact List.mem_map_of_mem _ hi
  · intro r hr
    rcases List.mem_map.mp hr with ⟨i, _, rfl⟩
    rfl
  · intro rid h
    unfold onHand
    rw [h]
    rfl

/-- C3 witness: a master-list ingredient with no movements appears in the
aggregate with on-hand 0. -/
theorem C3_onhand_aggregate_witness :
    (⟨"a", "Flour", 0⟩ : OnhandRow) ∈
      onhand_df [⟨"a", "Flour", "lb", none, none⟩] [] := by
  exact (C3_onhand_aggregate [⟨"a", "Flour", "lb", none, none⟩] []).2.1
    ⟨"a", "Flour", "lb", none, none⟩ (by simp)

/-- C4: `insert_txn` performs no validation at all: appending a movement
with quantity -5 inserts the row unconditionally and changes the derived
on-hand from 0 to -5, instead of failing with a ValidationError and
leaving on-hand unchanged. -/
theorem C4_append_no_validation :
    insert_txn [] "flour" "in" (-5) none "manual" none =
      [⟨"flour", "in", -5, none, "manual", none⟩] ∧
    onHand [] "flour" = 0 ∧
    onHand (insert_txn [] "flour" "in" (-5) none "manual" none) "flour" =
      -5 := by
  refine ⟨rfl, rfl, by norm_num [insert_txn, onHand, signedVal]⟩

/-- C5 counterexample: with weekly_usage 1 and par_override 0 the computed
par is round((1/7)*11, 4) = 1.5714, which differs from (1/7)*11. -/
theorem C5_counterexample : par 1 0 ≠ (1 / 7 : ℚ) * 11 := by
  norm_num [par, par_calc, daily_usage, round4, roundHE]

/-- C5 (amended): the computed par equals par_override when it is strictly
positive, and otherwise equals (weekly_usage / 7) * 11 rounded to 4
decimal places; in particular par 70 0 = 110. -/
theorem C5_par_level (w po : ℚ) :
    (0 < po → par w po = po) ∧
    (po ≤ 0 → par w po = round4 (w / 7 * 11)) ∧
    par 70 0 = 110 := by
  refine ⟨?_, ?_, by norm_num [par, par_calc, daily_usage, round4, roundHE]⟩
  · intro h
    unfold par
    rw [if_pos ⟨ne_of_gt h, h⟩]
  · intro h
    have hc : ¬ (po ≠ 0 ∧ 0 < po) := by
      rintro ⟨_, h2⟩
      exact absurd h2 (not_lt.mpr h)
    unfold par par_calc daily_usage
    rw [if_neg hc]

/-- C5 witness: a positive override wins (par 3 5 = 5) and the formula
case gives par 70 0 = 110. -/
theorem C5_par_level_witness : par 3 5 = 5 ∧ par 70 0 = 110 :=
  ⟨(C5_par_level 3 5).1 (by norm_num), (C5_par_level 70 0).2.2⟩

/-- C6: the computed order quantity equals max(0, par_level - on_hand),
is never negative, and is 0 whenever on-hand exceeds the par level. -/
theorem C6_to_order_clipped (on_hand par_level : ℚ) :
    to_order par_level on_hand = max 0 (par_level - on_hand) ∧
    0 ≤ to_order par_level on_hand ∧
    (par_level < on_hand → to_order par_level on_hand = 0) := by
  refine ⟨rfl, le_max_left 0 _, ?_⟩
  intro h
  unfold to_order
  rw [max_eq_left (le_of_lt (sub_neg.mpr h))]

/-- C6 witness: overstock (on-hand 120 above par 110) orders 0. -/
theorem C6_to_order_clipped_witness : to_order 110 120 = 0 :=
  (C6_to_order_clipped 120 110).2.2 (by norm_num)

/-- C7: `save_count_adjustments` takes no ingredient master list and
performs no per-item validation: a batch containing an id unknown to any
master list is applied all the same inside one shared pass, and the
operation returns only the bare count 2 — no per-item success/failure
result set exists. -/
theorem C7_batch_bare_count :
    save_count_adjustments [] (fun _ => 0) [("a", 5), ("ghost", 7)] =
      ([⟨"a", "in", 5, none, "adjustment", none⟩,
        ⟨"ghost", "in", 7, none, "adjustment", none⟩], 2) ∧
    onHand (save_count_adjustments [] (fun _ => 0)
      [("a", 5), ("ghost", 7)]).1 "ghost" = 7 := by
  have h : save_count_adjustments [] (fun _ => 0) [("a", 5), ("ghost", 7)] =
      ([⟨"a", "in", 5, none, "adjustment", none⟩,
        ⟨"ghost", "in", 7, none, "adjustment", none⟩], 2) := by
    have hag : ("a" : String) ≠ "ghost" := by decide
    rw [save_count_adjustments_eq]
    norm_num [eps, adjustStep, onHand, signedVal, List.filter_cons,
      List.filter_nil, hag]
  refine ⟨h, ?_⟩
  rw [h]
  have hag : ("a" : String) ≠ "ghost" := by decide
  norm_num [onHand, signedVal, List.filter_cons, List.filter_nil, hag]

/-- C8: at delta 1e-5 the `save_count_adjustments` path posts the
magnitude unrounded (qty exactly 1e-5), although rounding that delta to 4
decimal places gives 0; the `show_area_page` path, which does round,
skips the same delta entirely. -/
theorem C8_magnitude_not_rounded :
    (save_count_adjustments [] (fun _ => 0) [("a", 1 / 100000)] =
      ([⟨"a", "in", 1 / 100000, none, "adjustment", none⟩], 1)) ∧
    round4 (1 / 100000) = 0 ∧
    postAdjustments [] [⟨"a", 0, 1 / 100000⟩] = ([], 0) := by
  refine ⟨?_, ?_, ?_⟩
  · have habs : |(1 : ℚ) / 100000| = 1 / 100000 := abs_of_pos (by norm_num)
    rw [save_count_adjustments_eq]
    norm_num [eps, adjustStep, onHand, signedVal, List.filter_cons,
      List.filter_nil, habs]
  · norm_num [round4, roundHE]
  · norm_num [postAdjustments, postStep, insert_txn, round4, roundHE, eps]

/-- C9: when the caller-supplied base_map agrees with the ledger-derived
on-hand (as at every call site) and the submitted keys are distinct (a
Python dict), the value returned by `save_count_adjustments` equals the
number of movements actually appended to the ledger during the call. -/
theorem C9_return_count (ledger : List Txn) (base_map : String → ℚ)
    (new_map : List (String × ℚ))
    (hnd : (new_map.map Prod.fst).Nodup)
    (hbase : ∀ p ∈ new_map, base_map p.1 = onHand ledger p.1) :
    ((save_count_adjustments ledger base_map new_map).1).length =
      ledger.length + (save_count_adjustments ledger base_map new_map).2 := by
  rw [save_count_adjustments_eq]
  apply foldl_adjustStep_length
  · exact hnd.sublist ((List.filter_sublist _).map Prod.fst)
  · intro p hp
    have hpm : p ∈ new_map := (List.mem_filter.mp hp).1
    have hgt : |p.2 - base_map p.1| > eps :=
      of_decide_eq_true (List.mem_filter.mp hp).2
    rw [hbase p hpm] at hgt
    exact gap_ne hgt

/-- C9 witness: a fresh two-item batch on an empty ledger returns 2 and
appends exactly 2 movements. -/
theorem C9_return_count_witness :
    ((save_count_adjustments [] (fun _ => 0) [("a", 5), ("b", 3)]).1).length =
      ([] : List Txn).length +
        (save_count_adjustments [] (fun _ => 0) [("a", 5), ("b", 3)]).2 :=
  C9_return_count [] (fun _ => 0) [("a", 5), ("b", 3)] (by decide)
    (fun _ _ => rfl)

/-- C10: in `save_count_adjustments` the inserted quantity is computed
against the on-hand re-derived at write time, so every inserted movement
has non-negative quantity (tagged "adjustment") and an attempted item's
final on-hand equals the submitted value exactly, even when base_map is
stale; base_map only gates which items are attempted (those differing
from it by more than 1e-9) and a gated-out item leaves its on-hand
untouched. -/
theorem C10_write_time_derivation (ledger : List Txn)
    (base_map : String → ℚ) (new_map : List (String × ℚ))
    (rid : String) (X : ℚ)
    (hnd : (new_map.map Prod.fst).Nodup) (hmem : (rid, X) ∈ new_map) :
    (|X - base_map rid| > eps →
      onHand (save_count_adjustments ledger base_map new_map).1 rid = X) ∧
    (|X - base_map rid| ≤ eps →
      onHand (save_count_adjustments ledger base_map new_map).1 rid =
        onHand ledger rid) ∧
    (∀ t ∈ (save_count_adjustments ledger base_map new_map).1,
      t ∈ ledger ∨ (0 ≤ t.qty ∧ t.source = "adjustment")) := by
  rw [save_count_adjustments_eq]
  have hndf : ((new_map.filter
      (fun p => |p.2 - base_map p.1| > eps)).map Prod.fst).Nodup :=
    hnd.sublist ((List.filter_sublist _).map Prod.fst)
  refine ⟨?_, ?_, ?_⟩
  · intro h
    apply foldl_adjustStep_mem _ _ _ _ hndf
    exact List.mem_filter.mpr ⟨hmem, decide_eq_true h⟩
  · intro h
    apply foldl_adjustStep_other
    intro hin
    rcases List.mem_map.mp hin with ⟨q, hq, hq1⟩
    have hqm : q ∈ new_map := (List.mem_filter.mp hq).1
    have hq' : (rid, q.2) ∈ new_map := by
      rwa [show (rid, q.2) = q from Prod.ext hq1.symm rfl]
    have : q.2 = X := nodup_keys_eq hnd hq' hmem
    have hgt : |q.2 - base_map q.1| > eps :=
      of_decide_eq_true (List.mem_filter.mp hq).2
    rw [this, hq1] at hgt
    exact absurd h (not_le.mpr hgt)
  · intro t ht
    exact foldl_adjustStep_txn_mem _ _ t ht

/-- C10 witness: with a stale base_map (claiming 0 while the ledger holds
10), reconciling "a" to 4 still lands the derived on-hand exactly on 4. -/
theorem C10_write_time_derivation_witness :
    onHand (save_count_adjustments
      [⟨"a", "in", 10, none, "purchase", none⟩]
      (fun _ => 0) [("a", 4)]).1 "a" = 4 :=
  (C10_write_time_derivation [⟨"a", "in", 10, none, "purchase", none⟩]
    (fun _ => 0) [("a", 4)] "a" 4 (by simp) (List.mem_singleton.mpr rfl)).1
    (by norm_num [eps])

end InventoryKiosk
